import Mathlib

/-!
Verification development for the file-ownership index of
src/src/libpriv/rpmostree-refts.cxx (and its header rpmostree-refts.h).

The C++ source is shallowly embedded below. Paths are lists of characters,
the filesystem stat boundary of section 6 of the design document is a
function from paths to optional inode numbers, and the unordered maps of
the source are association lists. Every definition mirrors the control
flow of the corresponding C++ function; loops whose iteration count is
bounded by the length of the walked string are expressed with an explicit
fuel argument equal to that length, which is proved sufficient, so that
all definitions compute by kernel reduction.
-/

namespace RpmOstree

/-- A filesystem path, as the sequence of its characters. -/
abbrev Path := List Char

/-- Convenience conversion from a string literal to a path. -/
def toPath (s : String) : Path := s.toList

/-- Embedding of split_filepath (rpmostree-refts.cxx, lines 40 to 48).
Splits at the last slash: the first component is everything before the
last slash (the dirname) and the second everything from the last slash on
(so the returned basename keeps its leading slash, exactly as
path.substr(last_sep) does). A path without a slash yields an empty
dirname and the whole path as basename. -/
def split_filepath : Path → Path × Path
  | [] => ([], [])
  | c :: rest =>
    if '/' ∈ rest then
      (c :: (split_filepath rest).1, (split_filepath rest).2)
    else
      ([], c :: rest)

/-- The inode cache of the source, an association list standing for the
unordered_map from directory path to inode number. -/
abbrev InodeCache := List (Path × Nat)

/-- The filesystem stat boundary (section 6 of the design document): a
directory path resolves to an inode number, or to nothing when the path
does not exist. A fixed function models a fixed filesystem snapshot. -/
abbrev Fs := Path → Option Nat

/-- Association list lookup with decidable key equality, standing for
unordered_map find. -/
def alookup {κ α : Type} [DecidableEq κ] (k : κ) : List (κ × α) → Option α
  | [] => none
  | (k1, v) :: rest => if k = k1 then some v else alookup k rest

/-- Loop body of find_inode_for_dirname (rpmostree-refts.cxx, lines 50 to
75), with a fuel argument bounding the number of do-while iterations.
Each iteration either returns or replaces dirname by the strictly shorter
first component of split_filepath, so a fuel of the initial length is
sufficient; the fuel-exhausted branch is unreachable under the wrapper
below. On a cache hit the cached inode and the current dirname are
returned; on a successful stat the inode is cached and returned;
otherwise the walk retries on the parent until the path is empty, in
which case the pair of nothing and the empty path is returned. -/
def find_inode_go (fs : Fs) : Nat → Path → InodeCache → (Option Nat × Path) × InodeCache
  | 0, dirname, cache =>
    match alookup dirname cache with
    | some ino => ((some ino, dirname), cache)
    | none =>
      match fs dirname with
      | some ino => ((some ino, dirname), (dirname, ino) :: cache)
      | none =>
        let d1 := (split_filepath dirname).1
        ((none, d1), cache)
  | n + 1, dirname, cache =>
    match alookup dirname cache with
    | some ino => ((some ino, dirname), cache)
    | none =>
      match fs dirname with
      | some ino => ((some ino, dirname), (dirname, ino) :: cache)
      | none =>
        let d1 := (split_filepath dirname).1
        if d1.isEmpty then ((none, d1), cache)
        else find_inode_go fs n d1 cache

/-- Embedding of find_inode_for_dirname (rpmostree-refts.cxx, lines 50 to
75). The first component of the result is the returned pair of optional
inode and effective dirname; the second component is the updated cache. -/
def find_inode_for_dirname (fs : Fs) (dirname : Path) (cache : InodeCache) :
    (Option Nat × Path) × InodeCache :=
  find_inode_go fs dirname.length dirname cache

/-- The chain of directory paths the upward walk visits: the dirname
itself followed by the result of repeatedly stripping the last path
component with split_filepath, stopping before the empty path (the
do-while body never runs on the empty string unless the walk starts
there). Fuel equal to the length of the path is sufficient. -/
def strip_chain_go : Nat → Path → List Path
  | 0, d => [d]
  | n + 1, d =>
    let d1 := (split_filepath d).1
    if d1.isEmpty then [d] else d :: strip_chain_go n d1

/-- The ancestor chain of a dirname, longest first. -/
def strip_chain (d : Path) : List Path := strip_chain_go d.length d

/-- Cache-free description of the upward walk: stat the dirname, else
retry on the parent, until the path is exhausted. -/
def resolve_go (fs : Fs) : Nat → Path → Option Nat × Path
  | 0, d =>
    match fs d with
    | some i => (some i, d)
    | none => (none, (split_filepath d).1)
  | n + 1, d =>
    match fs d with
    | some i => (some i, d)
    | none =>
      let d1 := (split_filepath d).1
      if d1.isEmpty then (none, d1)
      else resolve_go fs n d1

/-- The pure resolution of a dirname against a filesystem snapshot alone,
with no cache: the value find_inode_for_dirname computes when every cache
entry agrees with the snapshot. -/
def resolve_dir (fs : Fs) (d : Path) : Option Nat × Path :=
  resolve_go fs d.length d

/-- The first (hence longest) path of the ancestor chain that exists in
the filesystem snapshot. -/
def first_existing_ancestor (fs : Fs) (d : Path) : Option Path :=
  (strip_chain d).find? (fun a => (fs a).isSome)

/-- A cache is consistent with a filesystem snapshot when every cached
inode is the stat answer for its path. The cache of one index only ever
holds results of earlier stat calls against the one snapshot the index
was built from (section 3 of the design document), so every cache the
program constructs is consistent. -/
def cacheConsistent (fs : Fs) (cache : InodeCache) : Prop :=
  ∀ p i, alookup p cache = some i → fs p = some i

/-- One file manifest entry as yielded by the package database file
iterator (section 6 boundary: per file the basename from rpmfiBN, the
parent directory from rpmfiDN, the file mode, and the install state
flag). The builder in the source reads only the basename and the dirname
of an entry; the mode and state fields are carried so that statements
about directory or not-installed entries can be made. -/
structure FileEntry where
  basename : Path
  dirname : Path
  isDirectory : Bool
  installed : Bool
deriving DecidableEq

/-- One installed package of the database: its NEVRA identifier string
(from header_get_nevra) and its file manifest. -/
structure Package where
  nevra : String
  files : List FileEntry
deriving DecidableEq

/-- The package database snapshot the builder iterates (RPMDBI_PACKAGES). -/
abbrev RpmDb := List Package

/-- Embedding of RpmFileDb::FilePackageInfo (rpmostree-refts.h, lines 85
to 90). -/
structure FilePackageInfo where
  pkg_nevra : String
  dirname : Path
  dir_inode : Option Nat
deriving DecidableEq

/-- Appends a value to the vector stored under a key of an unordered_map
from path to vector, creating the key when absent: the effect of
map[key].emplace_back(value). -/
def mapAppend (m : List (Path × List FilePackageInfo)) (k : Path) (v : FilePackageInfo) :
    List (Path × List FilePackageInfo) :=
  match m with
  | [] => [(k, [v])]
  | (k1, vs) :: rest =>
    if k1 = k then (k1, vs ++ [v]) :: rest else (k1, vs) :: mapAppend rest k v

/-- Adds a path to the set stored under an inode key of the diagnostic
inode-to-paths map: the effect of map[ino].emplace(path). -/
def setInsert (m : List (Nat × List Path)) (ino : Nat) (d : Path) :
    List (Nat × List Path) :=
  match m with
  | [] => [(ino, [d])]
  | (i, ds) :: rest =>
    if i = ino then (i, if d ∈ ds then ds else ds ++ [d]) :: rest
    else (i, ds) :: setInsert rest ino d

/-- Embedding of struct RpmFileDb (rpmostree-refts.h, lines 83 to 99). -/
structure RpmFileDb where
  basename_to_pkginfo : List (Path × List FilePackageInfo)
  use_fs_state : Bool
  inode_to_path : List (Nat × List Path)
  path_to_inode : InodeCache
deriving DecidableEq

/-- The record list stored under a basename key, empty when the key is
absent. -/
def recordsFor (m : List (Path × List FilePackageInfo)) (k : Path) :
    List FilePackageInfo :=
  (alookup k m).getD []

/-- One iteration of the inner file loop of build_file_cache_from_rpmdb
(rpmostree-refts.cxx, lines 251 to 272). When filesystem state is
consulted and the dirname is non-empty, the dirname is replaced by the
effective path found by the upward walk and the walked cache is kept;
the found inode is then dereferenced to feed the diagnostic
inode_to_path map. That dereference of a std::optional is performed
without a presence check, so the case in which the walk found no inode
is undefined behavior in the source; it is modeled as the failure value
none of the whole build. In every case one ownership record is appended
under the basename key, with no filtering on file mode or install
state (the loop reads neither). -/
def build_file_cache_entry (fs : Fs) (st : RpmFileDb) (pkg_nevra : String)
    (e : FileEntry) : Option RpmFileDb :=
  let basename := e.basename
  let dirname := e.dirname
  if st.use_fs_state && !dirname.isEmpty then
    let r := find_inode_for_dirname fs dirname st.path_to_inode
    match r.1.1 with
    | none => none
    | some ino =>
        some { st with
          path_to_inode := r.2,
          inode_to_path := setInsert st.inode_to_path ino r.1.2,
          basename_to_pkginfo :=
            mapAppend st.basename_to_pkginfo basename ⟨pkg_nevra, r.1.2, some ino⟩ }
  else
    some { st with
      basename_to_pkginfo :=
        mapAppend st.basename_to_pkginfo basename ⟨pkg_nevra, dirname, none⟩ }

/-- The inner while loop over one package file manifest. -/
def build_files (fs : Fs) (pkg_nevra : String) :
    List FileEntry → RpmFileDb → Option RpmFileDb
  | [], st => some st
  | e :: rest, st =>
    match build_file_cache_entry fs st pkg_nevra e with
    | none => none
    | some st1 => build_files fs pkg_nevra rest st1

/-- The outer while loop over the package set. -/
def build_pkgs (fs : Fs) : RpmDb → RpmFileDb → Option RpmFileDb
  | [], st => some st
  | pkg :: rest, st =>
    match build_files fs pkg.nevra pkg.files st with
    | none => none
    | some st1 => build_pkgs fs rest st1

/-- Embedding of RpmTs::build_file_cache_from_rpmdb (rpmostree-refts.cxx,
lines 229 to 276). The database handle is modeled as the list of packages
its iterator yields, and the stat boundary as the snapshot function; the
two iterator-failure throws of the source concern the external handle and
are outside the model. The result is none exactly when the empty-optional
dereference of line 264 is reached. -/
def build_file_cache_from_rpmdb (fs : Fs) (db : RpmDb) (use_fs_state : Bool) :
    Option RpmFileDb :=
  build_pkgs fs db
    { basename_to_pkginfo := [], use_fs_state := use_fs_state,
      inode_to_path := [], path_to_inode := [] }

/-- The match test of the query loop (rpmostree-refts.cxx, line 138): the
resolved query inode is present and equals the stored inode of the
record, or the stored dirname equals the effective query dirname. -/
def recordMatches (dir_inode : Option Nat) (dirname : Path)
    (info : FilePackageInfo) : Bool :=
  (dir_inode.isSome && (info.dir_inode == dir_inode)) || (info.dirname == dirname)

/-- Embedding of RpmFileDb::packages_for_file (rpmostree-refts.cxx, lines
118 to 146). The source splits the path into dirname and basename but
then looks the WHOLE path string up as the map key (line 124). When the
index consults filesystem state, the query dirname is resolved with the
shared mutable cache and replaced by the effective dirname before the
string comparison. The returned pair carries the result vector and the
cache as left by the call (the member is mutable in the source, so a
query can grow it). -/
def packages_for_file (fs : Fs) (db : RpmFileDb) (path : Path) :
    List String × InodeCache :=
  let dirname := (split_filepath path).1
  match alookup path db.basename_to_pkginfo with
  | none => ([], db.path_to_inode)
  | some infos =>
    if db.use_fs_state then
      let r := find_inode_for_dirname fs dirname db.path_to_inode
      (((infos.filter (recordMatches r.1.1 r.1.2)).map (fun i => i.pkg_nevra)), r.2)
    else
      (((infos.filter (recordMatches none dirname)).map (fun i => i.pkg_nevra)),
        db.path_to_inode)

/-- Runs a sequence of queries against one index object, each query
leaving its cache behind for the next, as the mutable member does. -/
def runQueries (fs : Fs) (idx : RpmFileDb) : List Path → RpmFileDb
  | [] => idx
  | p :: rest =>
    runQueries fs { idx with path_to_inode := (packages_for_file fs idx p).2 } rest

/-- One header record yielded by the name-indexed database iterator, with
the fields the accessor extracts (section 6 boundary: the canonical NEVRA
string and the scalar and list metadata fields). -/
structure Header where
  nevra : String
  size : Nat
  buildtime : Nat
  src_pkg : String
  changelog_times : List Nat
deriving DecidableEq

/-- Embedding of struct PackageMeta (rpmostree-refts.h, lines 53 to 81). -/
structure PackageMeta where
  _size : Nat
  _buildtime : Nat
  _changelogs : List Nat
  _src_pkg : String
deriving DecidableEq

/-- The metadata the accessor copies out of one header record. -/
def headerMeta (h : Header) : PackageMeta :=
  { _size := h.size, _buildtime := h.buildtime,
    _changelogs := h.changelog_times, _src_pkg := h.src_pkg }

/-- Outcome of RpmTs::package_meta: the returned metadata, the not-found
throw of line 180, the multiple-versions throw of line 220, or the
g_assert_not_reached abort of line 225. -/
inductive MetaResult where
  | ok : PackageMeta → MetaResult
  | packageNotFound : MetaResult
  | multipleVersions : String → String → MetaResult
  | assertNotReached : MetaResult
deriving DecidableEq

/-- The iteration of package_meta after the first record fixed previous
and filled the return value: every further record must carry the same
NEVRA, otherwise the multiple-versions error names the first and the
offending NEVRA (rpmostree-refts.cxx, lines 211 to 222). -/
def package_meta_rest (first : String) (m : PackageMeta) :
    List Header → MetaResult
  | [] => .ok m
  | h :: rest =>
    if first = h.nevra then package_meta_rest first m rest
    else .multipleVersions first h.nevra

/-- Embedding of RpmTs::package_meta (rpmostree-refts.cxx, lines 172 to
227), over the record list produced by the name-indexed iterator. The
argument none models a NULL iterator from rpmtsInitIterator (thrown as
package-not-found); some of an empty list models a non-NULL iterator
whose rpmdbNextIterator yields nothing, which lands in the
g_assert_not_reached defensive abort; otherwise the metadata of the
first record is recorded and the remaining records are checked. -/
def package_meta (mi : Option (List Header)) : MetaResult :=
  match mi with
  | none => .packageNotFound
  | some [] => .assertNotReached
  | some (h :: rest) => package_meta_rest h.nevra (headerMeta h) rest

/-- Modelled external boundary: rpmtsInitIterator over the RPMDBI_NAME
index returns NULL when no installed record carries the queried name
(the source relies on exactly this to throw package-not-found), and
otherwise an iterator over the matching records. The database is modeled
as the association of package names to header records. -/
def initNameIterator (db : List (String × Header)) (name : String) :
    Option (List Header) :=
  let hits := (db.filter (fun r => r.1 = name)).map (fun r => r.2)
  if hits.isEmpty then none else some hits

/-- Modelled from the match-rule wording of the specification (sections 3
and 4.3): a candidate record matches when directory identity resolution
is enabled and the stored inode of the record equals the inode resolved
for the dirname of the query, or when the stored dirname string equals
the dirname of the query. -/
def claimMatchRule (use_fs_state : Bool) (fs : Fs) (qdirname : Path)
    (info : FilePackageInfo) : Bool :=
  (use_fs_state &&
    (match (resolve_dir fs qdirname).1 with
     | some i => info.dir_inode == some i
     | none => false)) ||
  (info.dirname == qdirname)

/-- Modelled from the ownership-index invariant wording of the
specification (section 3): a record list holds at most one entry per
pair of package identifier and dirname. -/
def pairwiseDistinctRecords (l : List FilePackageInfo) : Prop :=
  l.Pairwise (fun a b => ¬ (a.pkg_nevra = b.pkg_nevra ∧ a.dirname = b.dirname))

/-- A filesystem snapshot with no existing path. -/
def fsNone : Fs := fun _ => none

/-- A filesystem snapshot in which exactly the directory /a exists. -/
def fsA : Fs := fun p => if p = toPath "/a" then some 1 else none

/-- A filesystem snapshot in which exactly the root directory exists. -/
def fsRoot : Fs := fun p => if p = toPath "/" then some 1 else none

/-- One-package database: foo-1.0 installs the regular file
/usr/bin/foo (the file iterator yields basename foo and dirname
/usr/bin/ with its trailing slash, as rpmfiBN and rpmfiDN do). -/
def dbOne : RpmDb :=
  [⟨"foo-1.0", [⟨toPath "foo", toPath "/usr/bin/", false, true⟩]⟩]

/-- Database with an installed regular entry, a not-installed regular
entry for the same path, and an installed directory entry. -/
def dbMixed : RpmDb :=
  [⟨"foo-1.0", [⟨toPath "foo", toPath "/usr/bin/", false, true⟩]⟩,
   ⟨"baz-1.0", [⟨toPath "foo", toPath "/usr/bin/", false, false⟩]⟩,
   ⟨"dir-1.0", [⟨toPath "bin", toPath "/usr/", true, true⟩]⟩]

/-- The index the embedded builder produces from dbMixed without
filesystem state. -/
def idxMixed : RpmFileDb :=
  ⟨[(toPath "foo", [⟨"foo-1.0", toPath "/usr/bin/", none⟩,
                    ⟨"baz-1.0", toPath "/usr/bin/", none⟩]),
    (toPath "bin", [⟨"dir-1.0", toPath "/usr/", none⟩])],
   false, [], []⟩

/-- The index the embedded builder produces from dbOne without
filesystem state. -/
def idxOne : RpmFileDb :=
  ⟨[(toPath "foo", [⟨"foo-1.0", toPath "/usr/bin/", none⟩])], false, [], []⟩

/-- One package whose only file sits in /a/, a directory that does not
exist in fsRoot while no ancestor of it is ever statted successfully
(the upward walk strips /a straight to the empty string and never tries
the root itself). -/
def dbUnresolvable : RpmDb :=
  [⟨"p-1.0", [⟨toPath "f", toPath "/a/", false, true⟩]⟩]

/-- One package owning the same basename under two distinct manifest
dirnames, /a/x/ and /a/y/, which both collapse onto the surviving
ancestor /a of fsA under filesystem-state resolution. -/
def dbCollapse : RpmDb :=
  [⟨"p-1.0", [⟨toPath "f", toPath "/a/x/", false, true⟩,
              ⟨toPath "f", toPath "/a/y/", false, true⟩]⟩]

/-- The index the embedded builder produces from dbCollapse over fsA
with filesystem state: both entries collapse to the record with dirname
/a and inode 1, appended twice. -/
def idxCollapse : RpmFileDb :=
  ⟨[(toPath "f", [⟨"p-1.0", toPath "/a", some 1⟩,
                  ⟨"p-1.0", toPath "/a", some 1⟩])],
   true, [(1, [toPath "/a"])], [(toPath "/a", 1)]⟩

/-- A sample header record. -/
def hdrA : Header := ⟨"libgcc-8.5.0-10.el8.x86_64", 100, 200, "libgcc-src", [1, 2]⟩

/-- A header record for the same name at a different version. -/
def hdrB : Header := ⟨"libgcc-9.1.1-4.el9.x86_64", 150, 300, "libgcc-src", [3]⟩

/-- A one-package metadata database. -/
def metaDb : List (String × Header) := [("libgcc", hdrA)]

theorem split_filepath_fst_length_lt {p : Path} (h : p ≠ []) :
    (split_filepath p).1.length < p.length := by
  induction p with
  | nil => exact absurd rfl h
  | cons c rest ih =>
    by_cases hm : '/' ∈ rest
    · have hrest : rest ≠ [] := by
        intro he
        simp [he] at hm
      simp only [split_filepath, if_pos hm, List.length_cons]
      exact Nat.succ_lt_succ (ih hrest)
    · simp only [split_filepath, if_neg hm, List.length_cons]
      exact Nat.succ_pos _

/-- On a slash-free path, split_filepath returns an empty dirname and the
path itself as basename (the npos branch of the source). -/
theorem split_filepath_of_no_slash {p : Path} (h : '/' ∉ p) :
    split_filepath p = ([], p) := by
  cases p with
  | nil => rfl
  | cons c rest =>
    have hm : '/' ∉ rest := fun hr => h (List.mem_cons_of_mem _ hr)
    simp [split_filepath, hm]

/-- On a path containing a slash, the basename component returned by
split_filepath starts with a slash (substr from the last separator). -/
theorem split_filepath_snd_head {p : Path} (h : '/' ∈ p) :
    ∃ t, (split_filepath p).2 = '/' :: t := by
  induction p with
  | nil => simp at h
  | cons c rest ih =>
    by_cases hm : '/' ∈ rest
    · obtain ⟨t, ht⟩ := ih hm
      exact ⟨t, by simp [split_filepath, hm, ht]⟩
    · have hc : c = '/' := by
        rcases List.mem_cons.mp h with h1 | h2
        · exact h1.symm
        · exact absurd h2 hm
      exact ⟨rest, by simp [split_filepath, hm, hc]⟩

theorem cacheConsistent_nil (fs : Fs) : cacheConsistent fs [] := by
  intro p i h
  simp [alookup] at h

/-- Central equality between the cached and the cache-free walk: with a
consistent cache, find_inode_go returns exactly what the pure resolution
computes, the updated cache stays consistent, and no cache entry is lost. -/
theorem find_inode_go_spec (fs : Fs) :
    ∀ (fuel : Nat) (d : Path) (cache : InodeCache), cacheConsistent fs cache →
      (find_inode_go fs fuel d cache).1 = resolve_go fs fuel d ∧
      cacheConsistent fs (find_inode_go fs fuel d cache).2 ∧
      (∀ q j, alookup q cache = some j →
        alookup q (find_inode_go fs fuel d cache).2 = some j) := by
  intro fuel
  induction fuel with
  | zero =>
    intro d cache hc
    cases hl : alookup d cache with
    | some ino =>
      have hfs : fs d = some ino := hc d ino hl
      refine ⟨?_, ?_, ?_⟩
      · simp [find_inode_go, resolve_go, hl, hfs]
      · simpa [find_inode_go, hl] using hc
      · intro q j hq
        simpa [find_inode_go, hl] using hq
    | none =>
      cases hfs : fs d with
      | some ino =>
        refine ⟨?_, ?_, ?_⟩
        · simp [find_inode_go, resolve_go, hl, hfs]
        · intro q j hq
          simp only [find_inode_go, hl, hfs] at hq
          simp only [alookup] at hq
          by_cases hqd : q = d
          · subst hqd
            simp at hq
            simp [hfs, hq]
          · exact hc q j (by simpa [hqd] using hq)
        · intro q j hq
          have hqd : q ≠ d := by
            intro he
            subst he
            simp [hl] at hq
          simp [find_inode_go, hl, hfs, alookup, hqd, hq]
      | none =>
        refine ⟨?_, ?_, ?_⟩
        · simp [find_inode_go, resolve_go, hl, hfs]
        · simpa [find_inode_go, hl, hfs] using hc
        · intro q j hq
          simpa [find_inode_go, hl, hfs] using hq
  | succ n ih =>
    intro d cache hc
    cases hl : alookup d cache with
    | some ino =>
      have hfs : fs d = some ino := hc d ino hl
      refine ⟨?_, ?_, ?_⟩
      · simp [find_inode_go, resolve_go, hl, hfs]
      · simpa [find_inode_go, hl] using hc
      · intro q j hq
        simpa [find_inode_go, hl] using hq
    | none =>
      cases hfs : fs d with
      | some ino =>
        refine ⟨?_, ?_, ?_⟩
        · simp [find_inode_go, resolve_go, hl, hfs]
        · intro q j hq
          simp only [find_inode_go, hl, hfs] at hq
          simp only [alookup] at hq
          by_cases hqd : q = d
          · subst hqd
            simp at hq
            simp [hfs, hq]
          · exact hc q j (by simpa [hqd] using hq)
        · intro q j hq
          have hqd : q ≠ d := by
            intro he
            subst he
            simp [hl] at hq
          simp [find_inode_go, hl, hfs, alookup, hqd, hq]
      | none =>
        by_cases he : ((split_filepath d).1).isEmpty
        · refine ⟨?_, ?_, ?_⟩
          · simp [find_inode_go, resolve_go, hl, hfs, he]
          · simpa [find_inode_go, hl, hfs, he] using hc
          · intro q j hq
            simpa [find_inode_go, hl, hfs, he] using hq
        · obtain ⟨h1, h2, h3⟩ := ih (split_filepath d).1 cache hc
          refine ⟨?_, ?_, ?_⟩
          · simpa [find_inode_go, resolve_go, hl, hfs, he] using h1
          · simpa [find_inode_go, hl, hfs, he] using h2
          · intro q j hq
            simpa [find_inode_go, hl, hfs, he] using h3 q j hq

/-- The result pair of find_inode_for_dirname on a consistent cache is
the pure resolution against the snapshot, independent of the cache. -/
theorem find_inode_for_dirname_eq_resolve (fs : Fs) (d : Path) (cache : InodeCache)
    (hc : cacheConsistent fs cache) :
    (find_inode_for_dirname fs d cache).1 = resolve_dir fs d :=
  (find_inode_go_spec fs d.length d cache hc).1

/-- The cache returned by find_inode_for_dirname stays consistent. -/
theorem find_inode_for_dirname_consistent (fs : Fs) (d : Path) (cache : InodeCache)
    (hc : cacheConsistent fs cache) :
    cacheConsistent fs (find_inode_for_dirname fs d cache).2 :=
  (find_inode_go_spec fs d.length d cache hc).2.1

/-- Entries present before a walk survive the walk. -/
theorem find_inode_for_dirname_preserves (fs : Fs) (d : Path) (cache : InodeCache)
    (hc : cacheConsistent fs cache) (q : Path) (j : Nat)
    (hq : alookup q cache = some j) :
    alookup q (find_inode_for_dirname fs d cache).2 = some j :=
  (find_inode_go_spec fs d.length d cache hc).2.2 q j hq

/-- With sufficient fuel, the cache-free walk returns the stat answer of
the first existing path of the ancestor chain, paired with that path, and
the pair of nothing and the empty path when no chain element exists. -/
theorem resolve_go_eq_chain (fs : Fs) :
    ∀ (fuel : Nat) (d : Path), d.length ≤ fuel →
      resolve_go fs fuel d =
        (match (strip_chain_go fuel d).find? (fun a => (fs a).isSome) with
         | some a => (fs a, a)
         | none => (none, [])) := by
  intro fuel
  induction fuel with
  | zero =>
    intro d hd
    have hdn : d = [] := List.length_eq_zero.mp (Nat.le_zero.mp hd)
    subst hdn
    cases hfs : fs [] with
    | some i => simp [resolve_go, strip_chain_go, List.find?, hfs]
    | none => simp [resolve_go, strip_chain_go, List.find?, hfs, split_filepath]
  | succ n ih =>
    intro d hd
    cases hfs : fs d with
    | some i =>
      by_cases he : (split_filepath d).1 = [] <;>
        simp [resolve_go, strip_chain_go, List.find?, hfs, he]
    | none =>
      by_cases he : ((split_filepath d).1).isEmpty
      · have he2 : (split_filepath d).1 = [] := List.isEmpty_iff.mp he
        simp [resolve_go, strip_chain_go, List.find?, hfs, he, he2]
      · have hne : (split_filepath d).1 ≠ [] := fun h => he (by simp [h])
        have hdn : d ≠ [] := by
          intro h
          subst h
          exact hne (by simp [split_filepath])
        have hlt : (split_filepath d).1.length < d.length :=
          split_filepath_fst_length_lt hdn
        have hfuel : (split_filepath d).1.length ≤ n :=
          Nat.le_of_lt_succ (Nat.lt_of_lt_of_le hlt hd)
        have := ih (split_filepath d).1 hfuel
        simp only [resolve_go, strip_chain_go, he, if_neg, hfs]
        simp only [List.find?, hfs, Option.isSome_none, Bool.false_eq_true, if_false]
        simpa [he] using this

/-- The resolution of a dirname is the stat answer of its first existing
ancestor, or the pair of nothing and the empty path when no suffix
stripped ancestor exists. -/
theorem resolve_dir_eq_chain (fs : Fs) (d : Path) :
    resolve_dir fs d =
      (match first_existing_ancestor fs d with
       | some a => (fs a, a)
       | none => (none, [])) :=
  resolve_go_eq_chain fs d.length d (Nat.le_refl _)

theorem mapAppend_alookup (m : List (Path × List FilePackageInfo)) (k : Path)
    (v : FilePackageInfo) (k1 : Path) :
    alookup k1 (mapAppend m k v) =
      if k1 = k then some (recordsFor m k ++ [v]) else alookup k1 m := by
  induction m with
  | nil =>
    by_cases h : k1 = k <;> simp [mapAppend, alookup, recordsFor, h]
  | cons hd rest ih =>
    obtain ⟨k2, vs⟩ := hd
    by_cases h2 : k2 = k
    · subst h2
      by_cases h1 : k1 = k2 <;> simp [mapAppend, alookup, recordsFor, h1]
    · have h2s : ¬ k = k2 := fun he => h2 he.symm
      by_cases h12 : k1 = k2
      · have h1 : ¬ k1 = k := fun he => h2 (h12.symm.trans he)
        simp [mapAppend, alookup, h2, h12, h1]
      · simp [mapAppend, alookup, recordsFor, h2, h12, h2s, ih]

/-- One builder iteration preserves the configuration flag. -/
theorem build_file_cache_entry_flag (fs : Fs) (st st1 : RpmFileDb)
    (nevra : String) (e : FileEntry)
    (h : build_file_cache_entry fs st nevra e = some st1) :
    st1.use_fs_state = st.use_fs_state := by
  unfold build_file_cache_entry at h
  by_cases hc : st.use_fs_state && !e.dirname.isEmpty
  · simp only [hc, if_true] at h
    cases hi : (find_inode_for_dirname fs e.dirname st.path_to_inode).1.1 with
    | none => simp [hi] at h
    | some ino =>
      simp only [hi] at h
      cases h
      rfl
  · simp only [hc, if_false] at h
    cases h
    rfl

/-- One builder iteration keeps the cache consistent with the snapshot. -/
theorem build_file_cache_entry_consistent (fs : Fs) (st st1 : RpmFileDb)
    (nevra : String) (e : FileEntry)
    (hcons : cacheConsistent fs st.path_to_inode)
    (h : build_file_cache_entry fs st nevra e = some st1) :
    cacheConsistent fs st1.path_to_inode := by
  unfold build_file_cache_entry at h
  by_cases hc : st.use_fs_state && !e.dirname.isEmpty
  · simp only [hc, if_true] at h
    cases hi : (find_inode_for_dirname fs e.dirname st.path_to_inode).1.1 with
    | none => simp [hi] at h
    | some ino =>
      simp only [hi] at h
      cases h
      exact find_inode_for_dirname_consistent fs e.dirname st.path_to_inode hcons
  · simp only [hc, if_false] at h
    cases h
    exact hcons

/-- One builder iteration appends exactly one record, under the basename
key of the entry, carrying the NEVRA of the package being walked; record
lists under all other keys are untouched. -/
theorem build_file_cache_entry_records (fs : Fs) (st st1 : RpmFileDb)
    (nevra : String) (e : FileEntry)
    (h : build_file_cache_entry fs st nevra e = some st1) (k : Path) :
    ∃ t, recordsFor st1.basename_to_pkginfo k =
           recordsFor st.basename_to_pkginfo k ++ t ∧
         t.length = (if e.basename = k then 1 else 0) ∧
         ∀ i ∈ t, i.pkg_nevra = nevra := by
  unfold build_file_cache_entry at h
  by_cases hc : st.use_fs_state && !e.dirname.isEmpty
  · simp only [hc, if_true] at h
    cases hi : (find_inode_for_dirname fs e.dirname st.path_to_inode).1.1 with
    | none => simp [hi] at h
    | some ino =>
      simp only [hi] at h
      cases h
      by_cases hk : k = e.basename
      · subst hk
        refine ⟨[⟨nevra, (find_inode_for_dirname fs e.dirname st.path_to_inode).1.2,
                  some ino⟩], ?_, by simp, by simp⟩
        simp [recordsFor, mapAppend_alookup]
      · refine ⟨[], ?_, by simp [show ¬ e.basename = k from fun he => hk he.symm],
          by simp⟩
        simp [recordsFor, mapAppend_alookup, hk]
  · simp only [hc, if_false] at h
    cases h
    by_cases hk : k = e.basename
    · subst hk
      refine ⟨[⟨nevra, e.dirname, none⟩], ?_, by simp, by simp⟩
      simp [recordsFor, mapAppend_alookup]
    · refine ⟨[], ?_, by simp [show ¬ e.basename = k from fun he => hk he.symm],
        by simp⟩
      simp [recordsFor, mapAppend_alookup, hk]

/-- One builder iteration never creates a map key other than the basename
of the entry. -/
theorem build_file_cache_entry_keys (fs : Fs) (st st1 : RpmFileDb)
    (nevra : String) (e : FileEntry)
    (h : build_file_cache_entry fs st nevra e = some st1) (k : Path)
    (hk : e.basename ≠ k) :
    alookup k st1.basename_to_pkginfo = alookup k st.basename_to_pkginfo := by
  unfold build_file_cache_entry at h
  by_cases hc : st.use_fs_state && !e.dirname.isEmpty
  · simp only [hc, if_true] at h
    cases hi : (find_inode_for_dirname fs e.dirname st.path_to_inode).1.1 with
    | none => simp [hi] at h
    | some ino =>
      simp only [hi] at h
      cases h
      simp [mapAppend_alookup, show ¬ k = e.basename from fun he => hk he.symm]
  · simp only [hc, if_false] at h
    cases h
    simp [mapAppend_alookup, show ¬ k = e.basename from fun he => hk he.symm]

/-- The file loop preserves the configuration flag. -/
theorem build_files_flag (fs : Fs) (nevra : String) :
    ∀ (files : List FileEntry) (st st1 : RpmFileDb),
      build_files fs nevra files st = some st1 →
      st1.use_fs_state = st.use_fs_state := by
  intro files
  induction files with
  | nil =>
    intro st st1 h
    cases h
    rfl
  | cons e rest ih =>
    intro st st1 h
    unfold build_files at h
    cases he : build_file_cache_entry fs st nevra e with
    | none => simp [he] at h
    | some st2 =>
      simp only [he] at h
      exact (ih st2 st1 h).trans (build_file_cache_entry_flag fs st st2 nevra e he)

/-- The package loop preserves the configuration flag. -/
theorem build_pkgs_flag (fs : Fs) :
    ∀ (db : RpmDb) (st st1 : RpmFileDb),
      build_pkgs fs db st = some st1 → st1.use_fs_state = st.use_fs_state := by
  intro db
  induction db with
  | nil =>
    intro st st1 h
    cases h
    rfl
  | cons pkg rest ih =>
    intro st st1 h
    unfold build_pkgs at h
    cases he : build_files fs pkg.nevra pkg.files st with
    | none => simp [he] at h
    | some st2 =>
      simp only [he] at h
      exact (ih st2 st1 h).trans (build_files_flag fs pkg.nevra pkg.files st st2 he)

/-- The file loop keeps the cache consistent. -/
theorem build_files_consistent (fs : Fs) (nevra : String) :
    ∀ (files : List FileEntry) (st st1 : RpmFileDb),
      cacheConsistent fs st.path_to_inode →
      build_files fs nevra files st = some st1 →
      cacheConsistent fs st1.path_to_inode := by
  intro files
  induction files with
  | nil =>
    intro st st1 hc h
    cases h
    exact hc
  | cons e rest ih =>
    intro st st1 hc h
    unfold build_files at h
    cases he : build_file_cache_entry fs st nevra e with
    | none => simp [he] at h
    | some st2 =>
      simp only [he] at h
      exact ih st2 st1 (build_file_cache_entry_consistent fs st st2 nevra e hc he) h

/-- The package loop keeps the cache consistent. -/
theorem build_pkgs_consistent (fs : Fs) :
    ∀ (db : RpmDb) (st st1 : RpmFileDb),
      cacheConsistent fs st.path_to_inode →
      build_pkgs fs db st = some st1 →
      cacheConsistent fs st1.path_to_inode := by
  intro db
  induction db with
  | nil =>
    intro st st1 hc h
    cases h
    exact hc
  | cons pkg rest ih =>
    intro st st1 hc h
    unfold build_pkgs at h
    cases he : build_files fs pkg.nevra pkg.files st with
    | none => simp [he] at h
    | some st2 =>
      simp only [he] at h
      exact ih st2 st1 (build_files_consistent fs pkg.nevra pkg.files st st2 hc he) h

/-- Walking one file manifest appends, under every key, exactly one
record per manifest entry whose basename is that key, each carrying the
package NEVRA, and leaves earlier records in place. -/
theorem build_files_records (fs : Fs) (nevra : String) :
    ∀ (files : List FileEntry) (st st1 : RpmFileDb),
      build_files fs nevra files st = some st1 → ∀ k,
      ∃ t, recordsFor st1.basename_to_pkginfo k =
             recordsFor st.basename_to_pkginfo k ++ t ∧
           t.length = files.countP (fun e => decide (e.basename = k)) ∧
           ∀ i ∈ t, i.pkg_nevra = nevra := by
  intro files
  induction files with
  | nil =>
    intro st st1 h k
    cases h
    exact ⟨[], by simp, by simp [List.countP, List.countP.go], by simp⟩
  | cons e rest ih =>
    intro st st1 h k
    unfold build_files at h
    cases he : build_file_cache_entry fs st nevra e with
    | none => simp [he] at h
    | some st2 =>
      simp only [he] at h
      obtain ⟨t1, ht1, hl1, hn1⟩ := build_file_cache_entry_records fs st st2 nevra e he k
      obtain ⟨t2, ht2, hl2, hn2⟩ := ih st2 st1 h k
      refine ⟨t1 ++ t2, ?_, ?_, ?_⟩
      · rw [ht2, ht1, List.append_assoc]
      · simp only [List.length_append, hl1, hl2, List.countP_cons]
        by_cases hbk : e.basename = k <;> simp [hbk, Nat.add_comm]
      · intro i hi
        rcases List.mem_append.mp hi with h1 | h2
        · exact hn1 i h1
        · exact hn2 i h2

/-- Walking the package set appends, under every key, exactly one record
per manifest entry with that basename, summed over all packages. -/
theorem build_pkgs_records (fs : Fs) :
    ∀ (db : RpmDb) (st st1 : RpmFileDb),
      build_pkgs fs db st = some st1 → ∀ k,
      ∃ t, recordsFor st1.basename_to_pkginfo k =
             recordsFor st.basename_to_pkginfo k ++ t ∧
           t.length = (db.map
             (fun pkg => pkg.files.countP (fun e => decide (e.basename = k)))).sum := by
  intro db
  induction db with
  | nil =>
    intro st st1 h k
    cases h
    exact ⟨[], by simp, by simp⟩
  | cons pkg rest ih =>
    intro st st1 h k
    unfold build_pkgs at h
    cases he : build_files fs pkg.nevra pkg.files st with
    | none => simp [he] at h
    | some st2 =>
      simp only [he] at h
      obtain ⟨t1, ht1, hl1, _⟩ := build_files_records fs pkg.nevra pkg.files st st2 he k
      obtain ⟨t2, ht2, hl2⟩ := ih st2 st1 h k
      refine ⟨t1 ++ t2, ?_, ?_⟩
      · rw [ht2, ht1, List.append_assoc]
      · simp [hl1, hl2]

/-- The file loop leaves keys that are no basename of the walked manifest
entirely absent or untouched. -/
theorem build_files_keys (fs : Fs) (nevra : String) :
    ∀ (files : List FileEntry) (st st1 : RpmFileDb),
      build_files fs nevra files st = some st1 → ∀ k,
      (∀ e ∈ files, e.basename ≠ k) →
      alookup k st1.basename_to_pkginfo = alookup k st.basename_to_pkginfo := by
  intro files
  induction files with
  | nil =>
    intro st st1 h k _
    cases h
    rfl
  | cons e rest ih =>
    intro st st1 h k hk
    unfold build_files at h
    cases he : build_file_cache_entry fs st nevra e with
    | none => simp [he] at h
    | some st2 =>
      simp only [he] at h
      rw [ih st2 st1 h k (fun x hx => hk x (List.mem_cons_of_mem _ hx))]
      exact build_file_cache_entry_keys fs st st2 nevra e he k
        (hk e (List.mem_cons_self _ _))

/-- The package loop leaves keys that are no basename of any manifest
entry entirely absent or untouched. -/
theorem build_pkgs_keys (fs : Fs) :
    ∀ (db : RpmDb) (st st1 : RpmFileDb),
      build_pkgs fs db st = some st1 → ∀ k,
      (∀ pkg ∈ db, ∀ e ∈ pkg.files, e.basename ≠ k) →
      alookup k st1.basename_to_pkginfo = alookup k st.basename_to_pkginfo := by
  intro db
  induction db with
  | nil =>
    intro st st1 h k _
    cases h
    rfl
  | cons pkg rest ih =>
    intro st st1 h k hk
    unfold build_pkgs at h
    cases he : build_files fs pkg.nevra pkg.files st with
    | none => simp [he] at h
    | some st2 =>
      simp only [he] at h
      rw [ih st2 st1 h k (fun p hp => hk p (List.mem_cons_of_mem _ hp))]
      exact build_files_keys fs pkg.nevra pkg.files st st2 he k
        (hk pkg (List.mem_cons_self _ _))

/-- Every manifest entry of every walked package leaves a record carrying
the NEVRA of its package under its basename key. -/
theorem build_pkgs_mem (fs : Fs) :
    ∀ (db : RpmDb) (st st1 : RpmFileDb),
      build_pkgs fs db st = some st1 →
      ∀ pkg ∈ db, ∀ e ∈ pkg.files,
        ∃ info ∈ recordsFor st1.basename_to_pkginfo e.basename,
          info.pkg_nevra = pkg.nevra := by
  intro db
  induction db with
  | nil =>
    intro st st1 h pkg hp
    simp at hp
  | cons pkg0 rest ih =>
    intro st st1 h pkg hp e he
    unfold build_pkgs at h
    cases hf : build_files fs pkg0.nevra pkg0.files st with
    | none => simp [hf] at h
    | some st2 =>
      simp only [hf] at h
      rcases List.mem_cons.mp hp with h0 | hr
      · subst h0
        obtain ⟨t, ht, hl, hn⟩ :=
          build_files_records fs pkg.nevra pkg.files st st2 hf e.basename
        have hpos : 0 < pkg.files.countP (fun x => decide (x.basename = e.basename)) :=
          List.countP_pos_iff.mpr ⟨e, he, by simp⟩
        obtain ⟨i, hit⟩ := List.exists_mem_of_length_pos (hl ▸ hpos)
        obtain ⟨t2, ht2, _⟩ := build_pkgs_records fs rest st2 st1 h e.basename
        refine ⟨i, ?_, hn i hit⟩
        rw [ht2, ht]
        exact List.mem_append_left _ (List.mem_append_right _ hit)
      · exact ih st2 st1 h pkg hr e he

/-- Embedded build preserves the requested configuration flag. -/
theorem build_flag (fs : Fs) (db : RpmDb) (b : Bool) (idx : RpmFileDb)
    (h : build_file_cache_from_rpmdb fs db b = some idx) :
    idx.use_fs_state = b :=
  build_pkgs_flag fs db _ idx h

/-- The cache of a freshly built index is consistent with the snapshot. -/
theorem build_consistent (fs : Fs) (db : RpmDb) (b : Bool) (idx : RpmFileDb)
    (h : build_file_cache_from_rpmdb fs db b = some idx) :
    cacheConsistent fs idx.path_to_inode :=
  build_pkgs_consistent fs db _ idx (cacheConsistent_nil fs) h

/-- In a built index the record list under a key has exactly one record
per manifest entry with that basename, over all packages. -/
theorem build_records_count (fs : Fs) (db : RpmDb) (b : Bool) (idx : RpmFileDb)
    (h : build_file_cache_from_rpmdb fs db b = some idx) (k : Path) :
    (recordsFor idx.basename_to_pkginfo k).length =
      (db.map (fun pkg =>
        pkg.files.countP (fun e => decide (e.basename = k)))).sum := by
  obtain ⟨t, ht, hl⟩ := build_pkgs_records fs db _ idx h k
  rw [ht]
  simp [recordsFor, alookup, hl]

/-- A key that is no basename of any manifest entry is absent from a
built index. -/
theorem build_keys_none (fs : Fs) (db : RpmDb) (b : Bool) (idx : RpmFileDb)
    (h : build_file_cache_from_rpmdb fs db b = some idx) (k : Path)
    (hk : ∀ pkg ∈ db, ∀ e ∈ pkg.files, e.basename ≠ k) :
    alookup k idx.basename_to_pkginfo = none := by
  rw [build_pkgs_keys fs db _ idx h k hk]
  rfl

/-- When every later record carries the NEVRA fixed by the first record,
the comparison loop falls through and returns the recorded metadata. -/
theorem package_meta_rest_all_eq (first : String) (m : PackageMeta) :
    ∀ rest : List Header, (∀ r ∈ rest, r.nevra = first) →
      package_meta_rest first m rest = .ok m := by
  intro rest
  induction rest with
  | nil => intro _; rfl
  | cons r tail ih =>
    intro hall
    have hr : first = r.nevra := (hall r (List.mem_cons_self _ _)).symm
    simp only [package_meta_rest, if_pos hr]
    exact ih (fun x hx => hall x (List.mem_cons_of_mem _ hx))

/-- When some later record differs from the first NEVRA, the comparison
loop stops at the first such record with the multiple-versions error
naming the first NEVRA and the offending one. -/
theorem package_meta_rest_mismatch (first : String) (m : PackageMeta) :
    ∀ rest : List Header, (∃ r ∈ rest, r.nevra ≠ first) →
      ∃ b, b ≠ first ∧
        package_meta_rest first m rest = .multipleVersions first b := by
  intro rest
  induction rest with
  | nil =>
    intro hex
    simp at hex
  | cons r tail ih =>
    intro hex
    by_cases hr : first = r.nevra
    · have htail : ∃ x ∈ tail, x.nevra ≠ first := by
        rcases hex with ⟨x, hx, hne⟩
        rcases List.mem_cons.mp hx with h0 | h1
        · exact absurd (h0 ▸ hr.symm) hne
        · exact ⟨x, h1, hne⟩
      obtain ⟨b, hb, heq⟩ := ih htail
      exact ⟨b, hb, by simpa [package_meta_rest, if_pos hr] using heq⟩
    · exact ⟨r.nevra, fun he => hr he.symm, by simp [package_meta_rest, hr]⟩

/-- C6: for a name with at least one installed record, package_meta
copies NEVRA, size, build time, source package and changelog timestamps
from the first record the iterator yields; a later record with a
different NEVRA fails with the multiple-versions error naming the first
and the offending NEVRA, while exact duplicate NEVRAs are tolerated and
the data of the first record is returned unmodified. -/
theorem package_meta_single_version (h : Header) (rest : List Header) :
    ((∀ r ∈ rest, r.nevra = h.nevra) →
      package_meta (some (h :: rest)) = .ok (headerMeta h)) ∧
    ((∃ r ∈ rest, r.nevra ≠ h.nevra) →
      ∃ b, b ≠ h.nevra ∧
        package_meta (some (h :: rest)) = .multipleVersions h.nevra b) :=
  ⟨fun hall => package_meta_rest_all_eq h.nevra (headerMeta h) rest hall,
   fun hex => package_meta_rest_mismatch h.nevra (headerMeta h) rest hex⟩

/-- Witness for C6 at concrete records: a duplicate of the first record
is accepted and yields the data of the first record, and a second record
at a different version yields the multiple-versions error. -/
theorem package_meta_single_version_witness :
    package_meta (some [hdrA, hdrA]) = .ok (headerMeta hdrA) ∧
    ∃ b, b ≠ hdrA.nevra ∧
      package_meta (some [hdrA, hdrB]) = .multipleVersions hdrA.nevra b :=
  ⟨(package_meta_single_version hdrA [hdrA]).1 (by decide),
   (package_meta_single_version hdrA [hdrB]).2 ⟨hdrB, by decide, by decide⟩⟩

/-- C7: when no installed record carries the queried name the iterator
comes back NULL and package_meta fails with the package-not-found error,
returning no partial or empty metadata; and a non-NULL iterator that
yields no record lands in the defensive g_assert_not_reached abort
rather than returning empty data. -/
theorem package_meta_not_found (db : List (String × Header)) (name : String)
    (hno : ∀ r ∈ db, r.1 ≠ name) :
    package_meta (initNameIterator db name) = .packageNotFound ∧
    package_meta (some []) = .assertNotReached := by
  constructor
  · have hnil : db.filter (fun r => r.1 = name) = [] := by
      rw [List.filter_eq_nil_iff]
      intro r hr
      simp [hno r hr]
    simp [initNameIterator, hnil, package_meta]
  · rfl

/-- Witness for C7: the single-package database does not contain the
queried name. -/
theorem package_meta_not_found_witness :
    package_meta (initNameIterator metaDb "does-not-exist") = .packageNotFound :=
  (package_meta_not_found metaDb "does-not-exist" (by decide)).1

/-- C1: the specification states that packages_for_file looks up the
basename component of the split as the index key, so that a query for a
slash-containing path whose basename is an index key finds the records
of that key. The code instead passes the whole path string to the map
find (rpmostree-refts.cxx, line 124): on the index built from dbOne the
key foo is present, yet the query for /usr/bin/foo misses the map and
returns the empty vector. -/
theorem packages_for_file_uses_whole_path_as_key :
    (build_file_cache_from_rpmdb fsNone dbOne false).map
      (fun idx => ((alookup (toPath "foo") idx.basename_to_pkginfo).isSome,
                   (packages_for_file fsNone idx (toPath "/usr/bin/foo")).1))
      = some (true, []) := by decide

/-- Counterexample to C2: the builder loop of the source reads neither
the file mode nor the install state, so the not-installed entry of
baz-1.0 and the directory entry of dir-1.0 are both inserted into the
built index, which the claim says can never happen. -/
theorem build_inserts_not_installed_and_directory_entries :
    (build_file_cache_from_rpmdb fsNone dbMixed false).map
      (fun idx =>
        ((recordsFor idx.basename_to_pkginfo (toPath "foo")).map
           (fun i => i.pkg_nevra),
         (recordsFor idx.basename_to_pkginfo (toPath "bin")).map
           (fun i => i.pkg_nevra)))
      = some (["foo-1.0", "baz-1.0"], ["dir-1.0"]) := by decide

/-- C2 as amended: the builder inserts one ownership record for every
manifest entry of every package regardless of file mode and install
state, so the record carrying the NEVRA of the owning package is present
under the basename key of the entry even for directory or not-installed
entries. -/
theorem build_inserts_every_entry (fs : Fs) (db : RpmDb) (b : Bool)
    (idx : RpmFileDb) (h : build_file_cache_from_rpmdb fs db b = some idx)
    (pkg : Package) (hp : pkg ∈ db) (e : FileEntry) (he : e ∈ pkg.files) :
    ∃ info ∈ recordsFor idx.basename_to_pkginfo e.basename,
      info.pkg_nevra = pkg.nevra :=
  build_pkgs_mem fs db _ idx h pkg hp e he

/-- Witness for the amended C2 at the concrete mixed database: the
not-installed entry of baz-1.0 leaves its record under the key foo. -/
theorem build_inserts_every_entry_witness :
    build_file_cache_from_rpmdb fsNone dbMixed false = some idxMixed ∧
    ∃ info ∈ recordsFor idxMixed.basename_to_pkginfo (toPath "foo"),
      info.pkg_nevra = "baz-1.0" :=
  ⟨by decide,
   build_inserts_every_entry fsNone dbMixed false idxMixed (by decide)
     ⟨"baz-1.0", [⟨toPath "foo", toPath "/usr/bin/", false, false⟩]⟩
     (by decide) ⟨toPath "foo", toPath "/usr/bin/", false, false⟩ (by decide)⟩

/-- When the walk returns an inode, the effective path it returns is
bound to that inode in the returned cache. -/
theorem find_inode_go_result_cached (fs : Fs) :
    ∀ (fuel : Nat) (d : Path) (cache : InodeCache) (i : Nat),
      (find_inode_go fs fuel d cache).1.1 = some i →
      alookup (find_inode_go fs fuel d cache).1.2
        (find_inode_go fs fuel d cache).2 = some i := by
  intro fuel
  induction fuel with
  | zero =>
    intro d cache i h
    cases hl : alookup d cache with
    | some ino =>
      simp only [find_inode_go, hl] at h ⊢
      simp [← h, hl]
    | none =>
      cases hfs : fs d with
      | some ino =>
        simp only [find_inode_go, hl, hfs] at h ⊢
        simp only [Option.some.injEq] at h
        simp [alookup, h]
      | none => simp [find_inode_go, hl, hfs] at h
  | succ n ih =>
    intro d cache i h
    cases hl : alookup d cache with
    | some ino =>
      simp only [find_inode_go, hl] at h ⊢
      simp [← h, hl]
    | none =>
      cases hfs : fs d with
      | some ino =>
        simp only [find_inode_go, hl, hfs] at h ⊢
        simp only [Option.some.injEq] at h
        simp [alookup, h]
      | none =>
        by_cases he : ((split_filepath d).1).isEmpty
        · simp [find_inode_go, hl, hfs, he] at h
        · simp only [find_inode_go, hl, hfs, he, if_false] at h ⊢
          exact ih (split_filepath d).1 cache i h

/-- C4: on a consistent cache, find_inode_for_dirname returns the stat
answer of the first (longest) suffix-stripped ancestor that exists,
paired with that ancestor, and the pair of nothing and the empty string
once the walk has exhausted the path; every earlier cache entry
survives the call and a found ancestor path is bound to its inode in
the returned cache. Consequently a recorded directory that no longer
exists still resolves to the inode of its nearest surviving ancestor. -/
theorem find_inode_first_existing_ancestor (fs : Fs) (d : Path)
    (cache : InodeCache) (hc : cacheConsistent fs cache) :
    (find_inode_for_dirname fs d cache).1 =
      (match first_existing_ancestor fs d with
       | some a => (fs a, a)
       | none => (none, [])) ∧
    (∀ q j, alookup q cache = some j →
      alookup q (find_inode_for_dirname fs d cache).2 = some j) ∧
    (∀ a, first_existing_ancestor fs d = some a →
      (alookup a (find_inode_for_dirname fs d cache).2).isSome) := by
  have h1 : (find_inode_for_dirname fs d cache).1 =
      (match first_existing_ancestor fs d with
       | some a => (fs a, a)
       | none => (none, [])) := by
    rw [find_inode_for_dirname_eq_resolve fs d cache hc]
    exact resolve_dir_eq_chain fs d
  refine ⟨h1, find_inode_for_dirname_preserves fs d cache hc, ?_⟩
  intro a ha
  have hsome : (fs a).isSome := by
    have := List.find?_some ha
    simpa using this
  obtain ⟨i, hi⟩ := Option.isSome_iff_exists.mp hsome
  have hres : (find_inode_for_dirname fs d cache).1 = (fs a, a) := by
    rw [h1, ha]
  have hfst : (find_inode_for_dirname fs d cache).1.1 = some i := by
    rw [hres, hi]
  have hsnd : (find_inode_for_dirname fs d cache).1.2 = a := by
    rw [hres]
  have := find_inode_go_result_cached fs d.length d cache i hfst
  rw [show find_inode_go fs d.length d cache = find_inode_for_dirname fs d cache
        from rfl] at this
  rw [hsnd] at this
  simp [this]

/-- Witness for C4: in the snapshot fsA the directories /a/b/c and /a/b
do not exist while /a does, and the walk started on the empty cache
returns the inode of /a paired with /a. -/
theorem find_inode_first_existing_ancestor_witness :
    cacheConsistent fsA [] ∧
    (find_inode_for_dirname fsA (toPath "/a/b/c") []).1 = (some 1, toPath "/a") := by
  refine ⟨cacheConsistent_nil fsA, ?_⟩
  have h := (find_inode_first_existing_ancestor fsA (toPath "/a/b/c") []
    (cacheConsistent_nil fsA)).1
  rw [h]
  decide

/-- Counterexample to C5: with only the root directory existing, the
entry of dbUnresolvable has the non-empty dirname /a/ whose upward walk
strips /a directly to the empty string without ever statting the root,
so find_inode_for_dirname returns an empty optional and the dereference
on line 264 of the source is reached; the build is the failure value. -/
theorem build_reaches_empty_inode_dereference :
    build_file_cache_from_rpmdb fsRoot dbUnresolvable true = none := by decide

/-- One builder iteration succeeds when the dirname of the entry is
empty, filesystem state is off, or some suffix-stripped ancestor of the
dirname exists. -/
theorem build_file_cache_entry_isSome (fs : Fs) (st : RpmFileDb)
    (nevra : String) (e : FileEntry)
    (hcons : cacheConsistent fs st.path_to_inode)
    (hres : ¬ e.dirname.isEmpty → (first_existing_ancestor fs e.dirname).isSome) :
    ∃ st1, build_file_cache_entry fs st nevra e = some st1 := by
  by_cases hc : st.use_fs_state && !e.dirname.isEmpty
  · have hdne : ¬ e.dirname.isEmpty := by
      rcases Bool.and_eq_true_iff.mp hc with ⟨_, h2⟩
      simpa using h2
    obtain ⟨a, ha⟩ := Option.isSome_iff_exists.mp (hres hdne)
    have hsome : (fs a).isSome := by
      have := List.find?_some ha
      simpa using this
    obtain ⟨i, hi⟩ := Option.isSome_iff_exists.mp hsome
    have hfst : (find_inode_for_dirname fs e.dirname st.path_to_inode).1.1 = some i := by
      rw [find_inode_for_dirname_eq_resolve fs e.dirname st.path_to_inode hcons,
        resolve_dir_eq_chain fs e.dirname]
      rw [show first_existing_ancestor fs e.dirname = some a from ha]
      simpa using hi
    unfold build_file_cache_entry
    simp only [hc, if_true, hfst]
    exact ⟨_, rfl⟩
  · unfold build_file_cache_entry
    simp only [hc, if_false]
    exact ⟨_, rfl⟩

/-- The file loop succeeds when every entry of the manifest has a
resolvable or empty dirname. -/
theorem build_files_isSome (fs : Fs) (nevra : String) :
    ∀ (files : List FileEntry) (st : RpmFileDb),
      cacheConsistent fs st.path_to_inode →
      (∀ e ∈ files, ¬ e.dirname.isEmpty →
        (first_existing_ancestor fs e.dirname).isSome) →
      ∃ st1, build_files fs nevra files st = some st1 := by
  intro files
  induction files with
  | nil =>
    intro st _ _
    exact ⟨st, rfl⟩
  | cons e rest ih =>
    intro st hcons hres
    obtain ⟨st2, h2⟩ := build_file_cache_entry_isSome fs st nevra e hcons
      (hres e (List.mem_cons_self _ _))
    obtain ⟨st3, h3⟩ := ih st2
      (build_file_cache_entry_consistent fs st st2 nevra e hcons h2)
      (fun x hx => hres x (List.mem_cons_of_mem _ hx))
    exact ⟨st3, by simp [build_files, h2, h3]⟩

/-- The package loop succeeds when every entry of every manifest has a
resolvable or empty dirname. -/
theorem build_pkgs_isSome (fs : Fs) :
    ∀ (db : RpmDb) (st : RpmFileDb),
      cacheConsistent fs st.path_to_inode →
      (∀ pkg ∈ db, ∀ e ∈ pkg.files, ¬ e.dirname.isEmpty →
        (first_existing_ancestor fs e.dirname).isSome) →
      ∃ st1, build_pkgs fs db st = some st1 := by
  intro db
  induction db with
  | nil =>
    intro st _ _
    exact ⟨st, rfl⟩
  | cons pkg rest ih =>
    intro st hcons hres
    obtain ⟨st2, h2⟩ := build_files_isSome fs pkg.nevra pkg.files st hcons
      (hres pkg (List.mem_cons_self _ _))
    obtain ⟨st3, h3⟩ := ih st2
      (build_files_consistent fs pkg.nevra pkg.files st st2 hcons h2)
      (fun p hp => hres p (List.mem_cons_of_mem _ hp))
    exact ⟨st3, by simp [build_pkgs, h2, h3]⟩

/-- C5 as amended: the empty-optional dereference of line 264 is
reachable (see the counterexample), and it is avoided exactly when the
upward walk cannot come back empty: whenever every non-empty dirname in
the database has some existing suffix-stripped ancestor, the build with
filesystem state enabled completes. -/
theorem build_succeeds_of_resolvable_dirnames (fs : Fs) (db : RpmDb)
    (hres : ∀ pkg ∈ db, ∀ e ∈ pkg.files, ¬ e.dirname.isEmpty →
      (first_existing_ancestor fs e.dirname).isSome) :
    (build_file_cache_from_rpmdb fs db true).isSome := by
  obtain ⟨st1, h1⟩ := build_pkgs_isSome fs db
    { basename_to_pkginfo := [], use_fs_state := true,
      inode_to_path := [], path_to_inode := [] }
    (cacheConsistent_nil fs) hres
  simp [build_file_cache_from_rpmdb, h1]

/-- Witness for the amended C5: under fsA the dirname /a/ of the only
entry has the existing ancestor /a, and the build completes. -/
theorem build_succeeds_of_resolvable_dirnames_witness :
    (build_file_cache_from_rpmdb fsA dbUnresolvable true).isSome :=
  build_succeeds_of_resolvable_dirnames fsA dbUnresolvable (by decide)

/-- Counterexample to C8: filesystem-state resolution maps the two
distinct manifest dirnames /a/x/ and /a/y/ of the one package of
dbCollapse onto the same effective dirname /a, and the builder appends
without deduplication, so the record list under the key f holds the
pair of package p-1.0 and dirname /a twice, violating the claimed
at-most-one invariant. -/
theorem build_keeps_duplicate_pair_records :
    (build_file_cache_from_rpmdb fsA dbCollapse true).map
      (fun idx => recordsFor idx.basename_to_pkginfo (toPath "f"))
      = some [⟨"p-1.0", toPath "/a", some 1⟩, ⟨"p-1.0", toPath "/a", some 1⟩] ∧
    ¬ pairwiseDistinctRecords
        [⟨"p-1.0", toPath "/a", some 1⟩, ⟨"p-1.0", toPath "/a", some 1⟩] := by
  constructor
  · decide
  · intro hp
    rcases hp with _ | ⟨hrel, _⟩
    exact hrel _ (List.mem_singleton.mpr rfl) ⟨rfl, rfl⟩

/-- C8 as amended: the builder appends exactly one record per manifest
entry, so for every basename key the record list of a built index has
exactly as many records as there are manifest entries with that
basename over all packages; in particular several records per pair of
package identifier and dirname remain when filesystem-state resolution
collapses distinct manifest dirnames. -/
theorem records_per_basename_count (fs : Fs) (db : RpmDb) (b : Bool)
    (idx : RpmFileDb) (h : build_file_cache_from_rpmdb fs db b = some idx)
    (k : Path) :
    (recordsFor idx.basename_to_pkginfo k).length =
      (db.map (fun pkg =>
        pkg.files.countP (fun e => decide (e.basename = k)))).sum :=
  build_records_count fs db b idx h k

/-- Witness for the amended C8 at the collapsing database: the two
entries with basename f produce a record list of length two. -/
theorem records_per_basename_count_witness :
    build_file_cache_from_rpmdb fsA dbCollapse true = some idxCollapse ∧
    (recordsFor idxCollapse.basename_to_pkginfo (toPath "f")).length = 2 :=
  ⟨by decide,
   (records_per_basename_count fsA dbCollapse true idxCollapse (by decide)
      (toPath "f")).trans (by decide)⟩

/-- C9: packages_for_file is total by construction, mirroring the
throw-free source loop, and absence of a match is the ordinary empty
result: a path that is no key of the map yields the empty vector, and
every returned package identifier is the identifier of some record
stored under the looked-up key (nothing is invented when no package
claims the path). -/
theorem packages_for_file_never_fails (fs : Fs) (idx : RpmFileDb) (p : Path) :
    (alookup p idx.basename_to_pkginfo = none →
      (packages_for_file fs idx p).1 = []) ∧
    (∀ s ∈ (packages_for_file fs idx p).1,
      ∃ info ∈ recordsFor idx.basename_to_pkginfo p, info.pkg_nevra = s) := by
  constructor
  · intro hnone
    simp [packages_for_file, hnone]
  · intro s hs
    cases hl : alookup p idx.basename_to_pkginfo with
    | none =>
      rw [show packages_for_file fs idx p = ([], idx.path_to_inode) from by
            simp [packages_for_file, hl]] at hs
      simp at hs
    | some infos =>
      have hrec : recordsFor idx.basename_to_pkginfo p = infos := by
        simp [recordsFor, hl]
      rw [hrec]
      by_cases hu : idx.use_fs_state
      · rw [show (packages_for_file fs idx p).1 =
            (infos.filter (recordMatches
              (find_inode_for_dirname fs (split_filepath p).1 idx.path_to_inode).1.1
              (find_inode_for_dirname fs (split_filepath p).1 idx.path_to_inode).1.2)).map
              (fun i => i.pkg_nevra) from by
              simp [packages_for_file, hl, hu]] at hs
        obtain ⟨info, hinfo, heq⟩ := List.mem_map.mp hs
        exact ⟨info, (List.mem_filter.mp hinfo).1, heq⟩
      · rw [show (packages_for_file fs idx p).1 =
            (infos.filter (recordMatches none (split_filepath p).1)).map
              (fun i => i.pkg_nevra) from by
              simp [packages_for_file, hl, hu]] at hs
        obtain ⟨info, hinfo, heq⟩ := List.mem_map.mp hs
        exact ⟨info, (List.mem_filter.mp hinfo).1, heq⟩

/-- Witness for C9: the path /usr/bin/missing is no key of the mixed
index and the query returns the empty vector. -/
theorem packages_for_file_never_fails_witness :
    alookup (toPath "/usr/bin/missing") idxMixed.basename_to_pkginfo = none ∧
    (packages_for_file fsNone idxMixed (toPath "/usr/bin/missing")).1 = [] :=
  ⟨by decide,
   (packages_for_file_never_fails fsNone idxMixed (toPath "/usr/bin/missing")).1
     (by decide)⟩

/-- C3: over an index built from a database whose basenames are genuine
basenames (slash-free, as rpmfiBN yields them) and a snapshot in which
the empty path does not stat (as POSIX guarantees), the query returns
exactly the identifiers of the records, stored under the basename
component of the split, that satisfy the match rule of the
specification: inode equality against the resolution of the query
dirname when the index consults filesystem state, or else plain string
equality of dirnames. -/
theorem packages_for_file_match_rule (fs : Fs) (db : RpmDb) (b : Bool)
    (idx : RpmFileDb) (p : Path)
    (hroot : fs [] = none)
    (hbn : ∀ pkg ∈ db, ∀ e ∈ pkg.files, '/' ∉ e.basename)
    (hb : build_file_cache_from_rpmdb fs db b = some idx) :
    (packages_for_file fs idx p).1 =
      ((recordsFor idx.basename_to_pkginfo (split_filepath p).2).filter
        (claimMatchRule idx.use_fs_state fs (split_filepath p).1)).map
        (fun i => i.pkg_nevra) := by
  have hcons := build_consistent fs db b idx hb
  by_cases hsl : '/' ∈ p
  · have hkey : alookup p idx.basename_to_pkginfo = none :=
      build_keys_none fs db b idx hb p
        (fun pkg hp e he hbe => hbn pkg hp e he (hbe.symm ▸ hsl))
    obtain ⟨t, ht⟩ := split_filepath_snd_head hsl
    have hkey2 : alookup (split_filepath p).2 idx.basename_to_pkginfo = none :=
      build_keys_none fs db b idx hb _
        (fun pkg hp e he hbe => hbn pkg hp e he
          (by rw [hbe, ht]; exact List.mem_cons_self _ _))
    simp [packages_for_file, hkey, recordsFor, hkey2]
  · have hsp : split_filepath p = ([], p) := split_filepath_of_no_slash hsl
    cases hl : alookup p idx.basename_to_pkginfo with
    | none => simp [packages_for_file, hsp, hl, recordsFor]
    | some infos =>
      have h0 : alookup ([] : Path) idx.path_to_inode = none := by
        cases h0 : alookup ([] : Path) idx.path_to_inode with
        | none => rfl
        | some i =>
          have hbad := hcons [] i h0
          rw [hroot] at hbad
          exact absurd hbad (by simp)
      have hres : (find_inode_for_dirname fs [] idx.path_to_inode).1 = (none, []) := by
        simp [find_inode_for_dirname, find_inode_go, h0, hroot, split_filepath]
      have hres1 : (find_inode_for_dirname fs [] idx.path_to_inode).1.1 = none := by
        rw [hres]
      have hres2 : (find_inode_for_dirname fs [] idx.path_to_inode).1.2 = ([] : Path) := by
        rw [hres]
      have hresolve : (resolve_dir fs []).1 = none := by
        simp [resolve_dir, resolve_go, hroot]
      have hpt : ∀ info : FilePackageInfo,
          claimMatchRule idx.use_fs_state fs [] info = recordMatches none [] info := by
        intro info
        cases hu : idx.use_fs_state <;>
          simp [claimMatchRule, recordMatches, hresolve]
      have hrec : recordsFor idx.basename_to_pkginfo p = infos := by
        simp [recordsFor, hl]
      have hL : (packages_for_file fs idx p).1 =
          (infos.filter (recordMatches none [])).map (fun i => i.pkg_nevra) := by
        by_cases hu : idx.use_fs_state
        · rw [show packages_for_file fs idx p =
              ((infos.filter (recordMatches
                (find_inode_for_dirname fs [] idx.path_to_inode).1.1
                (find_inode_for_dirname fs [] idx.path_to_inode).1.2)).map
                  (fun i => i.pkg_nevra),
                (find_inode_for_dirname fs [] idx.path_to_inode).2) from by
                simp [packages_for_file, hsp, hl, hu]]
          rw [hres1, hres2]
        · rw [show packages_for_file fs idx p =
              ((infos.filter (recordMatches none ([] : Path))).map
                (fun i => i.pkg_nevra), idx.path_to_inode) from by
                simp [packages_for_file, hsp, hl, hu]]
      rw [hL, hsp]
      show (infos.filter (recordMatches none [])).map (fun i => i.pkg_nevra)
         = ((recordsFor idx.basename_to_pkginfo p).filter
             (claimMatchRule idx.use_fs_state fs [])).map (fun i => i.pkg_nevra)
      rw [hrec]
      congr 1
      refine (List.filter_congr ?_).symm
      intro info _
      exact hpt info

/-- Witness for C3 at a concrete built index and a slash-containing
query path: both sides of the equation are the empty vector (no record
sits under the key of the split basename, which keeps its leading
slash, while the whole-path lookup of the code misses too). -/
theorem packages_for_file_match_rule_witness :
    fsNone ([] : Path) = none ∧
    build_file_cache_from_rpmdb fsNone dbOne false = some idxOne ∧
    (packages_for_file fsNone idxOne (toPath "/usr/bin/foo")).1 =
      ((recordsFor idxOne.basename_to_pkginfo
          (split_filepath (toPath "/usr/bin/foo")).2).filter
        (claimMatchRule idxOne.use_fs_state fsNone
          (split_filepath (toPath "/usr/bin/foo")).1)).map
        (fun i => i.pkg_nevra) :=
  ⟨rfl, by decide,
   packages_for_file_match_rule fsNone dbOne false idxOne
     (toPath "/usr/bin/foo") rfl (by decide) (by decide)⟩

/-- The result vector of a query depends only on the map, the flag, the
snapshot and consistency of the cache, not on which consistent cache
the index currently holds. -/
theorem packages_for_file_cache_congr (fs : Fs) (idx1 idx2 : RpmFileDb) (p : Path)
    (hmap : idx1.basename_to_pkginfo = idx2.basename_to_pkginfo)
    (hflag : idx1.use_fs_state = idx2.use_fs_state)
    (hc1 : cacheConsistent fs idx1.path_to_inode)
    (hc2 : cacheConsistent fs idx2.path_to_inode) :
    (packages_for_file fs idx1 p).1 = (packages_for_file fs idx2 p).1 := by
  cases hl : alookup p idx2.basename_to_pkginfo with
  | none => simp [packages_for_file, hmap, hl]
  | some infos =>
    have hl1 : alookup p idx1.basename_to_pkginfo = some infos := by rw [hmap, hl]
    cases hu : idx2.use_fs_state with
    | true =>
      have hu1 : idx1.use_fs_state = true := by rw [hflag, hu]
      have e1 := find_inode_for_dirname_eq_resolve fs (split_filepath p).1
        idx1.path_to_inode hc1
      have e2 := find_inode_for_dirname_eq_resolve fs (split_filepath p).1
        idx2.path_to_inode hc2
      simp [packages_for_file, hl1, hl, hu1, hu, e1, e2]
    | false =>
      have hu1 : idx1.use_fs_state = false := by rw [hflag, hu]
      simp [packages_for_file, hl1, hl, hu1, hu]

/-- A query leaves the cache consistent. -/
theorem packages_for_file_cache_consistent (fs : Fs) (idx : RpmFileDb) (p : Path)
    (hc : cacheConsistent fs idx.path_to_inode) :
    cacheConsistent fs (packages_for_file fs idx p).2 := by
  cases hl : alookup p idx.basename_to_pkginfo with
  | none => simpa [packages_for_file, hl] using hc
  | some infos =>
    cases hu : idx.use_fs_state with
    | true =>
      have hk := find_inode_for_dirname_consistent fs (split_filepath p).1
        idx.path_to_inode hc
      simpa [packages_for_file, hl, hu] using hk
    | false => simpa [packages_for_file, hl, hu] using hc

/-- Query sequences do not touch the record map. -/
theorem runQueries_map (fs : Fs) :
    ∀ (qs : List Path) (idx : RpmFileDb),
      (runQueries fs idx qs).basename_to_pkginfo = idx.basename_to_pkginfo := by
  intro qs
  induction qs with
  | nil => intro idx; rfl
  | cons q rest ih => intro idx; simp [runQueries, ih]

/-- Query sequences do not touch the configuration flag. -/
theorem runQueries_flag (fs : Fs) :
    ∀ (qs : List Path) (idx : RpmFileDb),
      (runQueries fs idx qs).use_fs_state = idx.use_fs_state := by
  intro qs
  induction qs with
  | nil => intro idx; rfl
  | cons q rest ih => intro idx; simp [runQueries, ih]

/-- Query sequences keep the cache consistent. -/
theorem runQueries_consistent (fs : Fs) :
    ∀ (qs : List Path) (idx : RpmFileDb),
      cacheConsistent fs idx.path_to_inode →
      cacheConsistent fs (runQueries fs idx qs).path_to_inode := by
  intro qs
  induction qs with
  | nil => intro idx hc; exact hc
  | cons q rest ih =>
    intro idx hc
    exact ih _ (packages_for_file_cache_consistent fs idx q hc)

/-- C10: two indexes built from the same database and the same snapshot
with the same flag answer the same query with the same vector, whatever
query sequences each index has already served; build followed by query
is deterministic over unchanged inputs (equality holds even as lists,
hence in particular as sets of package identifiers). -/
theorem build_then_query_deterministic (fs : Fs) (db : RpmDb) (b : Bool)
    (idx1 idx2 : RpmFileDb) (qs1 qs2 : List Path) (p : Path)
    (h1 : build_file_cache_from_rpmdb fs db b = some idx1)
    (h2 : build_file_cache_from_rpmdb fs db b = some idx2) :
    (packages_for_file fs (runQueries fs idx1 qs1) p).1 =
    (packages_for_file fs (runQueries fs idx2 qs2) p).1 := by
  have h12 : idx1 = idx2 := by
    rw [h1] at h2
    exact Option.some.inj h2
  subst h12
  have hcons := build_consistent fs db b idx1 h1
  apply packages_for_file_cache_congr
  · rw [runQueries_map, runQueries_map]
  · rw [runQueries_flag, runQueries_flag]
  · exact runQueries_consistent fs qs1 idx1 hcons
  · exact runQueries_consistent fs qs2 idx1 hcons

/-- Witness for C10: the same index built twice from dbOne, one copy
fresh and one copy having already served a query, answers the query for
foo identically. -/
theorem build_then_query_deterministic_witness :
    build_file_cache_from_rpmdb fsNone dbOne false = some idxOne ∧
    (packages_for_file fsNone (runQueries fsNone idxOne []) (toPath "foo")).1 =
    (packages_for_file fsNone (runQueries fsNone idxOne [toPath "x"]) (toPath "foo")).1 :=
  ⟨by decide,
   build_then_query_deterministic fsNone dbOne false idxOne idxOne
     [] [toPath "x"] (toPath "foo") (by decide) (by decide)⟩

end RpmOstree
